import Mathlib

set_option maxRecDepth 10000

/-!
# Verification of the multi-channel bot's chunker, dedup filter and webhook protocols

Shallow embedding of the core algorithms of the repository:

* `split_message_for_social_media` (src/facebook_app.py, lines 92-160) and its
  byte-identical copy `split_message_for_instagram` (src/instagram_app.py,
  lines 82-150): the sentence-pass / newline-pass / hard-split reply chunker.
* `_is_duplicate` (src/slack_app.py lines 45-53, src/facebook_app.py lines 80-89,
  src/instagram_app.py lines 70-79; the three copies are identical): the bounded
  FIFO + set duplicate-event filter.
* `verify_slack_signature` (src/slack_app.py, lines 166-184).
* `get_rag_chat_response` / `call_rag_chat_api` (src/rag_chat_helpers.py).
* the body of the Telegram polling loop (src/telegram_poll.py, `poll_loop`).

Python strings are modelled as `List Char` (Python `len` counts code points,
matching `List.length`); machine-level details (UTF-8 re-encoding, floats for
`time.time()`) do not affect any of the verified properties and integer
second counts are used for timestamps.
-/

/-- The whitespace characters removed by Python's `str.strip()` (ASCII part:
space, tab, newline, carriage return, vertical tab, form feed). -/
def pyWhitespace : List Char := [' ', '\t', '\n', '\r', '\x0b', '\x0c']

/-- Whether `c` is one of Python's `str.strip()` whitespace characters. -/
def isPySpace (c : Char) : Bool := pyWhitespace.contains c

/-- Python `s.strip()`: remove leading and trailing whitespace. -/
def stripList (s : List Char) : List Char :=
  (s.dropWhile isPySpace).rdropWhile isPySpace

/-- Python `text.split('. ')`: split on the literal two-character delimiter
`". "`, scanning left to right, non-overlapping occurrences. -/
def splitDot : List Char → List (List Char)
  | [] => [[]]
  | '.' :: ' ' :: rest => [] :: splitDot rest
  | c :: rest =>
    match splitDot rest with
    | [] => [[c]]
    | h :: t => (c :: h) :: t

/-- Python `chunk.split('\n')`: split on the newline character. -/
def splitNl : List Char → List (List Char)
  | [] => [[]]
  | c :: rest =>
    if c = '\n' then [] :: splitNl rest
    else
      match splitNl rest with
      | [] => [[c]]
      | h :: t => (c :: h) :: t

/-- The sentence-accumulation loop of `split_message_for_social_media`
(src/facebook_app.py lines 108-125): greedily joins the pieces of
`text.split('. ')` back with `". "`, sealing the running buffer (stripped)
as a chunk whenever appending the next sentence would exceed `maxLen`,
and sealing the final non-empty buffer at the end. -/
def accumSentences (maxLen : Nat) :
    List (List Char) → List Char → List (List Char) → List (List Char)
  | [], current, chunks =>
    if current ≠ [] then chunks ++ [stripList current] else chunks
  | s :: rest, current, chunks =>
    if current ≠ [] ∧ maxLen < current.length + s.length + 2 then
      accumSentences maxLen rest s (chunks ++ [stripList current])
    else
      accumSentences maxLen rest
        (if current ≠ [] then current ++ '.' :: ' ' :: s else s) chunks

/-- The newline-accumulation loop of `split_message_for_social_media`
(src/facebook_app.py lines 133-146), applied to a chunk still longer than
`maxLen`: greedily joins the pieces of `chunk.split('\n')` back with `"\n"`,
with the same seal-when-would-exceed rule (note the `+ 1` and the missing
"current buffer non-empty" conjunct, exactly as in the source). -/
def accumLines (maxLen : Nat) :
    List (List Char) → List Char → List (List Char) → List (List Char)
  | [], temp, acc =>
    if temp ≠ [] then acc ++ [stripList temp] else acc
  | l :: rest, temp, acc =>
    if maxLen < temp.length + l.length + 1 then
      accumLines maxLen rest l (if temp ≠ [] then acc ++ [stripList temp] else acc)
    else
      accumLines maxLen rest (if temp ≠ [] then temp ++ '\n' :: l else l) acc

/-- One slice step of the hard-split loop, with explicit fuel so that the
definition is structurally recursive (and hence kernel-evaluable).
`hardSplit` supplies `fuel = s.length`, which is enough because every
iteration removes at least `max maxLen 1 ≥ 1` characters; the fuel-exhausted
arm is unreachable for that choice.  The drop amount is `max maxLen 1`
rather than `maxLen` only so that the `maxLen = 0` case (where Python's
`range(0, len, 0)` raises `ValueError`) is total; for `maxLen ≥ 1` it is
exactly Python's `for i in range(0, len(chunk), max_length):
chunk[i:i+max_length]`. -/
def hardSplitFuel : Nat → Nat → List Char → List (List Char)
  | 0, _, s => if s = [] then [] else [s]
  | fuel + 1, maxLen, s =>
    if s = [] then []
    else s.take maxLen :: hardSplitFuel fuel maxLen (s.drop (max maxLen 1))

/-- The hard-split pass of `split_message_for_social_media`
(src/facebook_app.py lines 149-157): cut a chunk into fixed-width slices of
`maxLen` characters (the last slice may be shorter). -/
def hardSplit (maxLen : Nat) (s : List Char) : List (List Char) :=
  hardSplitFuel s.length maxLen s

/-- The chunker `split_message_for_social_media(text, max_length)` from src/facebook_app.py
lines 92-160: if the text fits, return it unchanged as a single chunk;
otherwise run the sentence pass, then re-split any still-too-long chunk by
newlines, then hard-split anything that remains too long. -/
def split_message_for_social_media (text : List Char) (maxLen : Nat) :
    List (List Char) :=
  if text.length ≤ maxLen then [text]
  else
    let chunks := accumSentences maxLen (splitDot text) [] []
    let finalChunks :=
      (chunks.map (fun c =>
        if c.length ≤ maxLen then [c] else accumLines maxLen (splitNl c) [] [])).flatten
    (finalChunks.map (fun c =>
      if c.length ≤ maxLen then [c] else hardSplit maxLen c)).flatten

/-- The chunker `split_message_for_instagram(text, max_length)` from src/instagram_app.py
lines 82-150.  The source function is byte-for-byte identical to
`split_message_for_social_media` in src/facebook_app.py (same cascade, same
constants), so it is embedded as the same function. -/
def split_message_for_instagram (text : List Char) (maxLen : Nat) :
    List (List Char) :=
  split_message_for_social_media text maxLen

/-- The text contributed by the pieces `ss` when each is preceded by the
`". "` delimiter that `text.split('. ')` removed. -/
def preDot (ss : List (List Char)) : List Char :=
  (ss.map (fun s => '.' :: ' ' :: s)).flatten

/-- The text contributed by the lines `ls` when each is preceded by the
`"\n"` delimiter that `chunk.split('\n')` removed. -/
def preNl (ls : List (List Char)) : List Char :=
  (ls.map (fun l => '\n' :: l)).flatten

/-- Separator strings: the material the chunker may drop or trim between two
adjacent output chunks — any interleaving of `str.strip()` whitespace
characters and complete `". "` delimiters (the `"\n"` delimiter is itself a
whitespace character). -/
inductive SepStr : List Char → Prop where
  | nil : SepStr []
  | ws : ∀ (c : Char) (s : List Char), isPySpace c = true → SepStr s → SepStr (c :: s)
  | dot : ∀ (s : List Char), SepStr s → SepStr ('.' :: ' ' :: s)

/-- Relation `Reconstructs cs t`: the chunk list `cs`, re-joined in order with some
choice of separator strings (whitespace and/or the `". "` / `"\n"` delimiters
the cascade split on), reconstructs the original text `t` exactly. -/
inductive Reconstructs : List (List Char) → List Char → Prop where
  | nil : ∀ s, SepStr s → Reconstructs [] s
  | cons : ∀ (c : List Char) (cs : List (List Char)) (s t : List Char),
      SepStr s → Reconstructs cs t → Reconstructs (c :: cs) (s ++ c ++ t)

/-- The state of the duplicate-event filter: `_processed_event_ids` (a deque,
front = oldest) paired with `_processed_event_index` (a set for O(1)
membership).  From src/slack_app.py lines 37-38 (identical globals exist in
src/facebook_app.py and src/instagram_app.py). -/
structure DedupState where
  ids : List String
  index : Finset String
deriving DecidableEq

/-- The `while len(_processed_event_ids) > 500:` eviction loop of
`_is_duplicate` (src/slack_app.py lines 50-52): pop the oldest identifier
from the deque and discard it from the set until at most 500 remain. -/
def evictLoop : List String → Finset String → List String × Finset String
  | ids@(old :: rest), index =>
    if 500 < ids.length then evictLoop rest (index.erase old)
    else (ids, index)
  | [], index => ([], index)

/-- The filter `_is_duplicate(event_id)` from src/slack_app.py lines 45-53 (the copies in
src/facebook_app.py lines 80-89 and src/instagram_app.py lines 70-79 are
identical): return `true` without touching state when the identifier is
already in the set; otherwise append it to the deque, add it to the set, run
the eviction loop, and return `false`. -/
def is_duplicate (x : String) (st : DedupState) : Bool × DedupState :=
  if x ∈ st.index then (true, st)
  else
    let p := evictLoop (st.ids ++ [x]) (insert x st.index)
    (false, ⟨p.1, p.2⟩)

/-- The filter state at process start: both structures empty. -/
def emptyDedup : DedupState := ⟨[], ∅⟩

/-- A sequence of `_is_duplicate` calls, returning the final state. -/
def runCalls (xs : List String) (st : DedupState) : DedupState :=
  xs.foldl (fun s x => (is_duplicate x s).2) st

/-- One step of decimal-digit accumulation for the model of Python `int()`:
consume digits, failing on any non-digit character. -/
def digitsToNatAux : List Char → Nat → Option Nat
  | [], acc => some acc
  | c :: rest, acc =>
    if c.isDigit then digitsToNatAux rest (acc * 10 + (c.toNat - 48)) else none

/-- A non-empty all-digit string to a natural number, `none` otherwise. -/
def digitsToNat : List Char → Option Nat
  | [] => none
  | cs => digitsToNatAux cs 0

/-- Model of Python's built-in `int(str)` as applied to the Slack timestamp
header: optional surrounding whitespace, optional `+`/`-` sign, then one or
more decimal digits; any other shape raises `ValueError`, modelled as `none`.
(Python additionally accepts underscore digit separators, which cannot occur
in a Slack timestamp and are not modelled.) -/
def pyIntParse (s : String) : Option Int :=
  match stripList s.data with
  | '+' :: rest => (digitsToNat rest).map Int.ofNat
  | '-' :: rest => (digitsToNat rest).map fun n => -(n : Int)
  | rest => (digitsToNat rest).map Int.ofNat

/-- Outcome of `verify_slack_signature`: normal return, an
`HTTPException(status_code=401, detail=...)`, or the uncaught `ValueError`
that `int(timestamp)` raises on a malformed timestamp (which FastAPI turns
into a 500, not a 401). -/
inductive SlackVerifyResult where
  | ok : SlackVerifyResult
  | unauthorized : String → SlackVerifyResult
  | valueError : SlackVerifyResult
deriving DecidableEq

/-- Whether the result is the 401 outcome. -/
def isUnauthorized : SlackVerifyResult → Bool
  | .unauthorized _ => true
  | _ => false

/-- The check `verify_slack_signature(request, raw_body)` from src/slack_app.py lines
166-184.  `hmacHex secret message` stands for
`hmac.new(secret.encode(), message.encode(), sha256).hexdigest()` (an external
library primitive, passed in as a function); `now` stands for `time.time()`
in whole seconds; a missing header is the empty string, matching
`request.headers.get(name, "")`; `hmac.compare_digest` on equal-length ASCII
strings returns exactly string equality. -/
def verify_slack_signature (secret : String) (hmacHex : String → String → String)
    (now : Int) (timestamp signature raw_body : String) : SlackVerifyResult :=
  if secret = "" then .ok
  else if timestamp = "" ∨ signature = "" then
    .unauthorized "Missing Slack signature headers"
  else
    match pyIntParse timestamp with
    | none => .valueError
    | some ts =>
      if 60 * 5 < (now - ts).natAbs then
        .unauthorized "Slack request timestamp too old"
      else
        let my_signature := "v0=" ++ hmacHex secret ("v0:" ++ timestamp ++ ":" ++ raw_body)
        if ¬ (my_signature = signature) then .unauthorized "Invalid Slack signature"
        else .ok

/-- The spec's replay-window rejection condition: the timestamp parses and is
more than 300 seconds away from the current time. -/
def slackTsStale (now : Int) (timestamp : String) : Bool :=
  match pyIntParse timestamp with
  | some ts => 300 < (now - ts).natAbs
  | none => false

/-- The timestamp parses and lies within the 300-second replay window. -/
def slackTsFresh (now : Int) (timestamp : String) : Bool :=
  match pyIntParse timestamp with
  | some ts => (now - ts).natAbs ≤ 300
  | none => false

/-- The rejection condition exactly as claim C5 words it: secret configured,
and a header missing, or the timestamp more than 300 seconds from now, or the
provided signature differing from `"v0=" + HMAC_SHA256(secret, base)`. -/
def slackClaimReject (secret : String) (hmacHex : String → String → String)
    (now : Int) (timestamp signature raw_body : String) : Bool :=
  !(secret == "") &&
    (timestamp == "" || signature == "" || slackTsStale now timestamp ||
      !(signature == "v0=" ++ hmacHex secret ("v0:" ++ timestamp ++ ":" ++ raw_body)))

/-- A stand-in hex digest used only to instantiate the concrete examples. -/
def constHmacHex (_secret _message : String) : String := "00"

/-- The observable outcome of the `httpx` POST inside `call_rag_chat_api`
(src/rag_chat_helpers.py lines 37-49): a parsed JSON body whose `"message"`
field may be absent, a timeout, a non-2xx status (`raise_for_status`), or any
other request failure. -/
inductive RagApiOutcome where
  | success : Option String → RagApiOutcome
  | timeout : RagApiOutcome
  | httpStatusError : Nat → String → RagApiOutcome
  | requestError : String → RagApiOutcome

/-- The exceptions `call_rag_chat_api` re-raises: `TimeoutError` or a generic
`Exception` carrying a message string. -/
inductive RagException where
  | timeoutError : String → RagException
  | exception : String → RagException

/-- The call `call_rag_chat_api` (src/rag_chat_helpers.py lines 19-52) viewed at its
exception boundary: success returns the `"message"` field; a timeout is
re-raised as `TimeoutError`; an HTTP status error is re-raised as
`Exception("RAG chat API returned error {status}: {body}")`; any other
failure as `Exception("Failed to call RAG chat API: {str(e)}")`.
`timeoutStr` is the decimal rendering of the float timeout (e.g. "25.0"). -/
def call_rag_chat_api (outcome : RagApiOutcome) (timeoutStr : String) :
    Except RagException (Option String) :=
  match outcome with
  | .success msg => .ok msg
  | .timeout =>
    .error (.timeoutError
      ("RAG chat API request timed out after " ++ timeoutStr ++ " seconds"))
  | .httpStatusError code text =>
    .error (.exception
      ("RAG chat API returned error " ++ toString code ++ ": " ++ text))
  | .requestError m =>
    .error (.exception ("Failed to call RAG chat API: " ++ m))

/-- The helper `get_rag_chat_response` (src/rag_chat_helpers.py lines 55-77): on success
the `"message"` field (or a default if absent); on `TimeoutError` a fixed
apology; on any other exception `"Sorry, I encountered an error: " + str(e)`. -/
def get_rag_chat_response (outcome : RagApiOutcome) (timeoutStr : String) : String :=
  match call_rag_chat_api outcome timeoutStr with
  | .ok msg => msg.getD "Sorry, I couldn't get a response."
  | .error (.timeoutError _) =>
    "Sorry, the request took too long. Please try again with a shorter question."
  | .error (.exception e) => "Sorry, I encountered an error: " ++ e

/-- The send step of `facebook_webhook` (src/facebook_app.py lines 416-438):
the reply string returned by `get_rag_chat_response` is chunked with the
default `max_length = 1900` and every chunk is sent.  (The surrounding
`try/except` at lines 408-414 is unreachable for upstream failures, because
`get_rag_chat_response` catches every exception internally and returns a
string.) -/
def facebook_reply_chunks (outcome : RagApiOutcome) (timeoutStr : String) :
    List (List Char) :=
  split_message_for_social_media (get_rag_chat_response outcome timeoutStr).data 1900

/-- Whether the outcome is one of the failure outcomes of the upstream chat call. -/
def isRagFailure : RagApiOutcome → Bool
  | .success _ => false
  | _ => true

/-- A Telegram update as the polling loop sees it: only the `update_id` field
matters for cursor movement (`update.get("update_id")` may be absent). -/
structure TgUpdate where
  update_id : Option Int
deriving DecidableEq

/-- The observable outcome of one `get_telegram_updates_via_composio` fetch in
`poll_loop` (src/telegram_poll.py lines 46-72): a failure (the result is not
"successful", or an exception was raised) or a batch of updates. -/
inductive TgFetchResult where
  | failure : TgFetchResult
  | batch : List TgUpdate → TgFetchResult
deriving DecidableEq

/-- The constant `POLL_INTERVAL_SECONDS = 2` from src/telegram_poll.py line 20. -/
def POLL_INTERVAL_SECONDS : Nat := 2

/-- One iteration of `poll_loop` (src/telegram_poll.py lines 48-71), given the
current offset and the fetch outcome.  Returns the new offset and the sleep
performed before the next fetch (`some POLL_INTERVAL_SECONDS` or no sleep):
on failure or an empty batch the loop sleeps and continues; on a non-empty
batch it handles each update, sets `offset = update_id + 1` for every update
carrying an id, and goes straight to the next fetch without sleeping. -/
def poll_iteration (offset : Option Int) (fetch : TgFetchResult) :
    Option Int × Option Nat :=
  match fetch with
  | .failure => (offset, some POLL_INTERVAL_SECONDS)
  | .batch updates =>
    if updates.isEmpty then (offset, some POLL_INTERVAL_SECONDS)
    else
      (updates.foldl (fun off u =>
        match u.update_id with
        | some i => some (i + 1)
        | none => off) offset, none)

/-- The outbound sends of the Slack handler: `slack_events`
(src/slack_app.py lines 300-322) passes the whole reply to a single
`send_slack_message(..., text=reply, ...)` call — no chunker is applied
anywhere in src/slack_app.py. -/
def slack_outbound_texts (reply : List Char) : List (List Char) := [reply]

/-- The outbound sends of the Facebook handler: `facebook_webhook`
(src/facebook_app.py lines 416-438) sends every element of
`split_message_for_social_media(reply)` (default `max_length = 1900`). -/
def facebook_outbound_texts (reply : List Char) : List (List Char) :=
  split_message_for_social_media reply 1900

/-- The outbound sends of the Instagram handler: `instagram_webhook`
(src/instagram_app.py lines 685-707) sends every element of
`split_message_for_instagram(reply)` (default `max_length = 1900`). -/
def instagram_outbound_texts (reply : List Char) : List (List Char) :=
  split_message_for_instagram reply 1900

-- Basic sanity checks of the embedding on concrete inputs.
example :
    split_message_for_social_media "Hello. This is a test. Another sentence here.".data 20 =
      ["Hello".data, "This is a test".data, "Another sentence her".data, "e.".data] := by
  decide

example : split_message_for_social_media "short text".data 1900 = ["short text".data] := by
  decide

example : split_message_for_social_media ("" : String).data 5 = [[]] := by decide

example : split_message_for_social_media ". ".data 1 = [] := by decide

/-- Every slice produced by the hard-split loop has length at most `maxLen`
(the fuel-exhausted arm is unreachable once `fuel` bounds `s.length`). -/
theorem hardSplitFuel_length_le :
    ∀ (fuel maxLen : Nat) (s : List Char), s.length ≤ fuel →
      ∀ c ∈ hardSplitFuel fuel maxLen s, c.length ≤ maxLen := by
  intro fuel
  induction fuel with
  | zero =>
    intro maxLen s hs c hc
    have : s = [] := List.length_eq_zero.mp (Nat.le_antisymm hs (Nat.zero_le _))
    subst this
    simp [hardSplitFuel] at hc
  | succ n ih =>
    intro maxLen s hs c hc
    by_cases hnil : s = []
    · subst hnil; simp [hardSplitFuel] at hc
    · simp only [hardSplitFuel, if_neg hnil, List.mem_cons] at hc
      rcases hc with rfl | hc
      · simp only [List.length_take]; exact Nat.min_le_left maxLen s.length
      · refine ih maxLen _ ?_ c hc
        have hpos : 1 ≤ s.length := List.length_pos.mpr hnil
        have : (s.drop (max maxLen 1)).length = s.length - max maxLen 1 :=
          List.length_drop _ _
        omega

/-- Every element of a hard split is at most `maxLen` characters long. -/
theorem hardSplit_length_le (maxLen : Nat) (s : List Char) :
    ∀ c ∈ hardSplit maxLen s, c.length ≤ maxLen :=
  hardSplitFuel_length_le s.length maxLen s le_rfl

/-- Every chunk returned by `split_message_for_social_media` has length at
most `maxLen`: the final pass either keeps a short chunk or hard-splits. -/
theorem split_message_length_le (text : List Char) (maxLen : Nat) :
    ∀ c ∈ split_message_for_social_media text maxLen, c.length ≤ maxLen := by
  intro c hc
  unfold split_message_for_social_media at hc
  split at hc
  · next hshort => simp only [List.mem_singleton] at hc; subst hc; exact hshort
  · simp only [List.mem_flatten, List.mem_map] at hc
    obtain ⟨l, ⟨c', _, rfl⟩, hcl⟩ := hc
    by_cases hlen : c'.length ≤ maxLen
    · rw [if_pos hlen] at hcl
      simp only [List.mem_singleton] at hcl; subst hcl; exact hlen
    · rw [if_neg hlen] at hcl
      exact hardSplit_length_le maxLen c' c hcl

/-- C1: every chunk returned by the chunker (both the Facebook and the
Instagram copy) has length at most `max_length`, for positive `max_length`. -/
theorem chunk_length_bound (text : List Char) (maxLen : Nat) (_h : 0 < maxLen) :
    (∀ c ∈ split_message_for_social_media text maxLen, c.length ≤ maxLen) ∧
    (∀ c ∈ split_message_for_instagram text maxLen, c.length ≤ maxLen) :=
  ⟨split_message_length_le text maxLen, split_message_length_le text maxLen⟩

/-- Witness for C1: on `"ab. cd. ef"` with `max_length = 3` the chunk `"ab"`
is produced and indeed has length at most 3. -/
theorem chunk_length_bound_witness : "ab".data.length ≤ 3 :=
  (chunk_length_bound "ab. cd. ef".data 3 (by decide)).1 "ab".data (by decide)

/-- C2: on input that already fits (`len(s) ≤ max_length`) the chunker (both
copies) returns exactly the single-element list `[s]`, with `s` unchanged. -/
theorem chunk_identity_short (s : List Char) (maxLen : Nat) (h : s.length ≤ maxLen) :
    split_message_for_social_media s maxLen = [s] ∧
    split_message_for_instagram s maxLen = [s] := by
  constructor <;>
    simp [split_message_for_instagram, split_message_for_social_media, if_pos h]

/-- Witness for C2: `"  hi there  "` (length 12, untrimmed whitespace kept)
with `max_length = 20` comes back as the unchanged singleton. -/
theorem chunk_identity_short_witness :
    split_message_for_social_media "  hi there  ".data 20 = ["  hi there  ".data] :=
  (chunk_identity_short "  hi there  ".data 20 (by decide)).1

/-- Unfolding of `splitDot` on a cons cell that does not begin with `". "`. -/
theorem splitDot_cons_generic (c : Char) (rest t1 : List Char) (tr : List (List Char))
    (hne : ∀ (r1 : List Char), c = '.' → rest = ' ' :: r1 → False)
    (hsp : splitDot rest = t1 :: tr) :
    splitDot (c :: rest) = (c :: t1) :: tr := by
  rw [splitDot.eq_def]
  split
  · rename_i heq; cases heq
  · rename_i r1 heq
    injection heq with h1 h2
    exact (hne r1 h1 h2).elim
  · rename_i cc rr hno heq
    injection heq with h1 h2
    subst h1 h2
    rw [hsp]

/-- Splitting with `splitDot` always produces at least one piece, and re-joining the pieces
with `". "` gives back the original string (Python's split/join identity). -/
theorem splitDot_eq_join :
    ∀ s, ∃ s1 rest, splitDot s = s1 :: rest ∧ s = s1 ++ preDot rest := by
  intro s
  induction s using splitDot.induct with
  | case1 => exact ⟨[], [], rfl, rfl⟩
  | case2 rest ih =>
    obtain ⟨t1, tr, hsp, hj⟩ := ih
    refine ⟨[], t1 :: tr, by rw [splitDot, hsp], ?_⟩
    simp only [preDot, List.map_cons, List.flatten_cons, List.nil_append]
    simp only [preDot] at hj
    simp [hj]
  | case3 c rest hne hnil ih =>
    obtain ⟨t1, tr, hsp, _⟩ := ih
    rw [hsp] at hnil; exact absurd hnil (by simp)
  | case4 c rest hne h t hht ih =>
    obtain ⟨t1, tr, hsp, hj⟩ := ih
    exact ⟨c :: t1, tr, splitDot_cons_generic c rest t1 tr hne hsp, by simp [hj]⟩

/-- Splitting with `splitNl` always produces at least one piece, and re-joining the pieces
with `"\n"` gives back the original string. -/
theorem splitNl_eq_join :
    ∀ s, ∃ l1 rest, splitNl s = l1 :: rest ∧ s = l1 ++ preNl rest := by
  intro s
  induction s with
  | nil => exact ⟨[], [], rfl, rfl⟩
  | cons c rest ih =>
    obtain ⟨t1, tr, hsp, hj⟩ := ih
    by_cases hc : c = '\n'
    · refine ⟨[], t1 :: tr, ?_, ?_⟩
      · simp [splitNl, if_pos hc, hsp]
      · subst hc
        simp only [preNl, List.map_cons, List.flatten_cons, List.nil_append]
        simp only [preNl] at hj
        simp [hj]
    · refine ⟨c :: t1, tr, ?_, by simp [hj]⟩
      simp [splitNl, if_neg hc, hsp]

theorem sepStr_append : ∀ {a b : List Char}, SepStr a → SepStr b → SepStr (a ++ b) := by
  intro a b ha hb
  induction ha with
  | nil => simpa using hb
  | ws c s hc _ ih => exact SepStr.ws c _ hc ih
  | dot s _ ih => exact SepStr.dot _ ih

theorem SepStr.of_ws : ∀ {w : List Char}, (∀ c ∈ w, isPySpace c = true) → SepStr w := by
  intro w hw
  induction w with
  | nil => exact SepStr.nil
  | cons c s ih =>
    exact SepStr.ws c s (hw c (by simp)) (ih fun d hd => hw d (by simp [hd]))

theorem Reconstructs.sep_left {cs : List (List Char)} {s t : List Char}
    (hs : SepStr s) (h : Reconstructs cs t) : Reconstructs cs (s ++ t) := by
  cases h with
  | nil u hu => exact Reconstructs.nil _ (sepStr_append hs hu)
  | cons c cs' s' t' hs' hr =>
    have : s ++ (s' ++ c ++ t') = (s ++ s') ++ c ++ t' := by simp [List.append_assoc]
    rw [this]
    exact Reconstructs.cons c cs' _ t' (sepStr_append hs hs') hr

theorem Reconstructs.sep_right {cs : List (List Char)} {s t : List Char}
    (h : Reconstructs cs t) (hs : SepStr s) : Reconstructs cs (t ++ s) := by
  induction h with
  | nil u hu => exact Reconstructs.nil _ (sepStr_append hu hs)
  | cons c cs' s' t' hs' _ ih =>
    have : (s' ++ c ++ t') ++ s = s' ++ c ++ (t' ++ s) := by simp [List.append_assoc]
    rw [this]
    exact Reconstructs.cons c cs' s' _ hs' ih

theorem reconstructs_append {cs1 cs2 : List (List Char)} {t1 t2 : List Char}
    (h1 : Reconstructs cs1 t1) (h2 : Reconstructs cs2 t2) :
    Reconstructs (cs1 ++ cs2) (t1 ++ t2) := by
  induction h1 with
  | nil u hu => exact h2.sep_left hu
  | cons c cs' s' t' hs' _ ih =>
    have : (s' ++ c ++ t') ++ t2 = s' ++ c ++ (t' ++ t2) := by simp [List.append_assoc]
    rw [this]
    exact Reconstructs.cons c _ s' _ hs' ih

/-- Every string is its stripped core surrounded by whitespace. -/
theorem stripList_decomp (s : List Char) :
    ∃ w1 w2, (∀ c ∈ w1, isPySpace c = true) ∧ (∀ c ∈ w2, isPySpace c = true) ∧
      s = w1 ++ stripList s ++ w2 := by
  refine ⟨s.takeWhile isPySpace,
    (((s.dropWhile isPySpace).reverse.takeWhile isPySpace)).reverse, ?_, ?_, ?_⟩
  · intro c hc; exact List.mem_takeWhile_imp hc
  · intro c hc
    rw [List.mem_reverse] at hc
    exact List.mem_takeWhile_imp hc
  · conv_lhs => rw [← List.takeWhile_append_dropWhile (p := isPySpace) (l := s)]
    rw [List.append_assoc]
    congr 1
    unfold stripList List.rdropWhile
    rw [← List.reverse_append, List.takeWhile_append_dropWhile, List.reverse_reverse]

/-- A single stripped chunk reconstructs the text it was sealed from. -/
theorem reconstructs_strip (c : List Char) : Reconstructs [stripList c] c := by
  obtain ⟨w1, w2, h1, h2, hdec⟩ := stripList_decomp c
  have h := Reconstructs.cons (stripList c) [] w1 w2 (SepStr.of_ws h1)
    (Reconstructs.nil w2 (SepStr.of_ws h2))
  rwa [← hdec] at h

/-- A single chunk kept verbatim reconstructs itself. -/
theorem reconstructs_self (c : List Char) : Reconstructs [c] c := by
  have h := Reconstructs.cons c [] [] [] SepStr.nil (Reconstructs.nil [] SepStr.nil)
  simpa using h

/-- Chunk-wise refinement: replacing every chunk by a list of sub-chunks that
reconstructs it preserves reconstruction of the whole text. -/
theorem reconstructs_refine {cs : List (List Char)} {t : List Char}
    (h : Reconstructs cs t) (f : List Char → List (List Char))
    (hf : ∀ c ∈ cs, Reconstructs (f c) c) :
    Reconstructs ((cs.map f).flatten) t := by
  induction h with
  | nil u hu => exact Reconstructs.nil u hu
  | cons c cs' s' t' hs' _ ih =>
    simp only [List.map_cons, List.flatten_cons]
    have h1 : Reconstructs (f c) (s' ++ c) :=
      (hf c (by simp)).sep_left hs'
    have h2 : Reconstructs ((cs'.map f).flatten) t' :=
      ih fun d hd => hf d (by simp [hd])
    have := reconstructs_append h1 h2
    simpa [List.append_assoc] using this

/-- The sentence-accumulation loop only drops `". "` delimiters at the seams
and whitespace at chunk edges: if the chunks sealed so far reconstruct `T`,
the final chunk list reconstructs `T` followed by the running buffer and the
remaining sentences (each preceded by its `". "` delimiter). -/
theorem accumSentences_reconstructs (maxLen : Nat) :
    ∀ (ss : List (List Char)) (cur : List Char) (chunks : List (List Char))
      (T : List Char), Reconstructs chunks T →
      Reconstructs (accumSentences maxLen ss cur chunks) (T ++ cur ++ preDot ss) := by
  intro ss
  induction ss with
  | nil =>
    intro cur chunks T h
    simp only [accumSentences, preDot, List.map_nil, List.flatten_nil, List.append_nil]
    by_cases hcur : cur = []
    · rw [if_neg (by simp [hcur])]
      simpa [hcur] using h
    · rw [if_pos hcur]
      exact reconstructs_append h (reconstructs_strip cur)
  | cons s rest ih =>
    intro cur chunks T h
    simp only [accumSentences]
    by_cases hcond : cur ≠ [] ∧ maxLen < cur.length + s.length + 2
    · rw [if_pos hcond]
      have hdot : SepStr ['.', ' '] := SepStr.dot [] SepStr.nil
      have hch : Reconstructs (chunks ++ [stripList cur]) ((T ++ cur) ++ ['.', ' ']) :=
        (reconstructs_append h (reconstructs_strip cur)).sep_right hdot
      have := ih s (chunks ++ [stripList cur]) _ hch
      simpa [preDot, List.append_assoc] using this
    · rw [if_neg hcond]
      by_cases hcur : cur = []
      · rw [if_neg (by simp [hcur])]
        have hdot : SepStr ['.', ' '] := SepStr.dot [] SepStr.nil
        have hch : Reconstructs chunks (T ++ ['.', ' ']) := h.sep_right hdot
        have := ih s chunks _ hch
        simpa [hcur, preDot, List.append_assoc] using this
      · rw [if_pos hcur]
        have := ih (cur ++ '.' :: ' ' :: s) chunks T h
        simpa [preDot, List.append_assoc] using this

/-- Same invariant for the newline-accumulation loop (the `"\n"` delimiter is
itself whitespace, so the dropped seams are still separator strings). -/
theorem accumLines_reconstructs (maxLen : Nat) :
    ∀ (ls : List (List Char)) (temp : List Char) (acc : List (List Char))
      (T : List Char), Reconstructs acc T →
      Reconstructs (accumLines maxLen ls temp acc) (T ++ temp ++ preNl ls) := by
  intro ls
  induction ls with
  | nil =>
    intro temp acc T h
    simp only [accumLines, preNl, List.map_nil, List.flatten_nil, List.append_nil]
    by_cases htemp : temp = []
    · rw [if_neg (by simp [htemp])]
      simpa [htemp] using h
    · rw [if_pos htemp]
      exact reconstructs_append h (reconstructs_strip temp)
  | cons l rest ih =>
    intro temp acc T h
    simp only [accumLines]
    have hnl : SepStr ['\n'] := SepStr.ws '\n' [] (by decide) SepStr.nil
    by_cases hcond : maxLen < temp.length + l.length + 1
    · rw [if_pos hcond]
      by_cases htemp : temp = []
      · rw [if_neg (by simp [htemp])]
        have hch : Reconstructs acc (T ++ ['\n']) := h.sep_right hnl
        have := ih l acc _ hch
        simpa [htemp, preNl, List.append_assoc] using this
      · rw [if_pos htemp]
        have hch : Reconstructs (acc ++ [stripList temp]) ((T ++ temp) ++ ['\n']) :=
          (reconstructs_append h (reconstructs_strip temp)).sep_right hnl
        have := ih l (acc ++ [stripList temp]) _ hch
        simpa [preNl, List.append_assoc] using this
    · rw [if_neg hcond]
      by_cases htemp : temp = []
      · rw [if_neg (by simp [htemp])]
        have hch : Reconstructs acc (T ++ ['\n']) := h.sep_right hnl
        have := ih l acc _ hch
        simpa [htemp, preNl, List.append_assoc] using this
      · rw [if_pos htemp]
        have := ih (temp ++ '\n' :: l) acc T h
        simpa [preNl, List.append_assoc] using this

/-- The hard-split pass drops nothing: its slices reconstruct the chunk with
empty separators. -/
theorem hardSplitFuel_reconstructs :
    ∀ (fuel maxLen : Nat) (s : List Char), s.length ≤ fuel → 1 ≤ maxLen →
      Reconstructs (hardSplitFuel fuel maxLen s) s := by
  intro fuel
  induction fuel with
  | zero =>
    intro maxLen s hs hm
    have : s = [] := List.length_eq_zero.mp (Nat.le_antisymm hs (Nat.zero_le _))
    subst this
    exact Reconstructs.nil [] SepStr.nil
  | succ n ih =>
    intro maxLen s hs hm
    by_cases hnil : s = []
    · subst hnil
      simp only [hardSplitFuel, if_pos rfl]
      exact Reconstructs.nil [] SepStr.nil
    · simp only [hardSplitFuel, if_neg hnil]
      have hmax : max maxLen 1 = maxLen := Nat.max_eq_left hm
      rw [hmax]
      have hdrop : (s.drop maxLen).length ≤ n := by
        have h1 : 1 ≤ s.length := List.length_pos.mpr hnil
        have h2 : (s.drop maxLen).length = s.length - maxLen := List.length_drop _ _
        omega
      have hrest := ih maxLen (s.drop maxLen) hdrop hm
      have hcons := Reconstructs.cons (s.take maxLen) _ [] (s.drop maxLen)
        SepStr.nil hrest
      simpa [List.take_append_drop] using hcons

/-- C8: chunker coverage.  The chunks returned by the chunker (both copies),
re-joined in order with the separators the cascade chose at each seam
(whitespace trimmed at chunk boundaries, plus the dropped `". "` / `"\n"`
delimiters), reconstruct the original text exactly. -/
theorem chunker_coverage (text : List Char) (maxLen : Nat) (h : 0 < maxLen) :
    Reconstructs (split_message_for_social_media text maxLen) text ∧
    Reconstructs (split_message_for_instagram text maxLen) text := by
  have main : Reconstructs (split_message_for_social_media text maxLen) text := by
    by_cases hlen : text.length ≤ maxLen
    · simp only [split_message_for_social_media, if_pos hlen]
      exact reconstructs_self text
    · simp only [split_message_for_social_media, if_neg hlen]
      obtain ⟨s1, rest, hsp, hj⟩ := splitDot_eq_join text
      have stage1 : Reconstructs (accumSentences maxLen (splitDot text) [] []) text := by
        rw [hsp]
        have e : accumSentences maxLen (s1 :: rest) [] [] =
            accumSentences maxLen rest s1 [] := by
          simp [accumSentences]
        rw [e]
        have := accumSentences_reconstructs maxLen rest s1 []
          [] (Reconstructs.nil [] SepStr.nil)
        rw [hj]
        simpa using this
      have stage2 := reconstructs_refine stage1
        (fun c => if c.length ≤ maxLen then [c] else accumLines maxLen (splitNl c) [] [])
        (by
          intro c _
          dsimp only
          by_cases hc : c.length ≤ maxLen
          · rw [if_pos hc]; exact reconstructs_self c
          · rw [if_neg hc]
            obtain ⟨l1, lr, hsp2, hj2⟩ := splitNl_eq_join c
            rw [hsp2]
            have e : accumLines maxLen (l1 :: lr) [] [] =
                accumLines maxLen lr l1 [] := by
              simp [accumLines]
            rw [e]
            have := accumLines_reconstructs maxLen lr l1 []
              [] (Reconstructs.nil [] SepStr.nil)
            rw [hj2]
            simpa using this)
      have stage3 := reconstructs_refine stage2
        (fun c => if c.length ≤ maxLen then [c] else hardSplit maxLen c)
        (by
          intro c _
          dsimp only
          by_cases hc : c.length ≤ maxLen
          · rw [if_pos hc]; exact reconstructs_self c
          · rw [if_neg hc]
            exact hardSplitFuel_reconstructs c.length maxLen c le_rfl h)
      exact stage3
  exact ⟨main, main⟩

/-- Witness for C8: coverage holds on the spec's end-to-end example with
`max_length = 20`, and in particular the chunks there are the expected ones. -/
theorem chunker_coverage_witness :
    Reconstructs
      (split_message_for_social_media "Hello. This is a test. Another sentence here.".data 20)
      "Hello. This is a test. Another sentence here.".data :=
  (chunker_coverage "Hello. This is a test. Another sentence here.".data 20 (by decide)).1

/-- A string whose pieces under `split('. ')` are all empty collapses to no
chunks at all: the sentence pass never seals anything. -/
theorem accumSentences_nil_of_all_nil (maxLen : Nat) :
    ∀ ss, (∀ p ∈ ss, p = ([] : List Char)) →
      accumSentences maxLen ss [] [] = [] := by
  intro ss
  induction ss with
  | nil => intro _; simp [accumSentences]
  | cons s rest ih =>
    intro hall
    have hs : s = [] := hall s (by simp)
    have e : accumSentences maxLen (s :: rest) [] [] =
        accumSentences maxLen rest [] [] := by
      simp [accumSentences, hs]
    rw [e]
    exact ih fun p hp => hall p (by simp [hp])

/-- If something non-empty is pending (sealed chunks, the running buffer, or a
non-empty remaining sentence), the sentence pass returns at least one chunk. -/
theorem accumSentences_ne_nil (maxLen : Nat) :
    ∀ (ss : List (List Char)) (cur : List Char) (chunks : List (List Char)),
      (chunks ≠ [] ∨ cur ≠ [] ∨ ∃ p ∈ ss, p ≠ []) →
      accumSentences maxLen ss cur chunks ≠ [] := by
  intro ss
  induction ss with
  | nil =>
    intro cur chunks hd
    simp only [accumSentences]
    rcases hd with hchunks | hcur | hex
    · split <;> simp [hchunks]
    · rw [if_pos hcur]; simp
    · simp at hex
  | cons s rest ih =>
    intro cur chunks hd
    simp only [accumSentences]
    by_cases hcond : cur ≠ [] ∧ maxLen < cur.length + s.length + 2
    · rw [if_pos hcond]
      exact ih s (chunks ++ [stripList cur]) (Or.inl (by simp))
    · rw [if_neg hcond]
      by_cases hcur : cur = []
      · rw [if_neg (by simp [hcur])]
        rcases hd with hchunks | hcur' | hex
        · exact ih s chunks (Or.inl hchunks)
        · exact absurd hcur hcur'
        · rcases hex with ⟨p, hp, hpne⟩
          rcases List.mem_cons.mp hp with rfl | hp'
          · exact ih p chunks (Or.inr (Or.inl hpne))
          · exact ih s chunks (Or.inr (Or.inr ⟨p, hp', hpne⟩))
      · rw [if_pos hcur]
        exact ih (cur ++ '.' :: ' ' :: s) chunks (Or.inr (Or.inl (by simp [hcur])))

/-- Every chunk the sentence pass emits (beyond those already sealed) is the
`strip()` of some string. -/
theorem accumSentences_mem_stripped (maxLen : Nat) :
    ∀ (ss : List (List Char)) (cur : List Char) (chunks : List (List Char)),
      (∀ c ∈ chunks, ∃ w, c = stripList w) →
      ∀ c ∈ accumSentences maxLen ss cur chunks, ∃ w, c = stripList w := by
  intro ss
  induction ss with
  | nil =>
    intro cur chunks hch c hc
    simp only [accumSentences] at hc
    split at hc
    · rcases List.mem_append.mp hc with hmem | hmem
      · exact hch c hmem
      · exact ⟨cur, by simpa using hmem⟩
    · exact hch c hc
  | cons s rest ih =>
    intro cur chunks hch c hc
    simp only [accumSentences] at hc
    split at hc
    · refine ih s (chunks ++ [stripList cur]) ?_ c hc
      intro d hd
      rcases List.mem_append.mp hd with hmem | hmem
      · exact hch d hmem
      · exact ⟨cur, by simpa using hmem⟩
    · exact ih _ chunks hch c hc

/-- The first character of a non-empty stripped string is not whitespace. -/
theorem dropWhile_head_false :
    ∀ (l : List Char) (c : Char) (t : List Char),
      l.dropWhile isPySpace = c :: t → isPySpace c = false := by
  intro l
  induction l with
  | nil => intro c t h; cases h
  | cons d ds ih =>
    intro c t h
    by_cases hd : isPySpace d
    · rw [List.dropWhile_cons_of_pos hd] at h
      exact ih c t h
    · rw [List.dropWhile_cons_of_neg hd] at h
      injection h with h1 _
      subst h1
      exact Bool.not_eq_true _ ▸ (by simpa using hd)

/-- The first character of a non-empty `strip()` result is not whitespace. -/
theorem stripList_head_not_space (w : List Char) (c : Char) (t : List Char)
    (h : stripList w = c :: t) : isPySpace c = false := by
  have hpre : stripList w <+: w.dropWhile isPySpace := by
    unfold stripList
    exact List.rdropWhile_prefix _ _
  obtain ⟨r, hr⟩ := hpre
  rw [h] at hr
  exact dropWhile_head_false w c (t ++ r) hr.symm

/-- If something is pending, the newline-accumulation loop returns at least
one chunk. -/
theorem accumLines_ne_nil (maxLen : Nat) :
    ∀ (ls : List (List Char)) (temp : List Char) (acc : List (List Char)),
      (acc ≠ [] ∨ temp ≠ [] ∨ ∃ l ∈ ls, l ≠ []) →
      accumLines maxLen ls temp acc ≠ [] := by
  intro ls
  induction ls with
  | nil =>
    intro temp acc hd
    simp only [accumLines]
    rcases hd with hacc | htemp | hex
    · split <;> simp [hacc]
    · rw [if_pos htemp]; simp
    · simp at hex
  | cons l rest ih =>
    intro temp acc hd
    simp only [accumLines]
    by_cases hcond : maxLen < temp.length + l.length + 1
    · rw [if_pos hcond]
      rcases hd with hacc | htemp | hex
      · refine ih l _ (Or.inl ?_)
        split <;> simp [hacc]
      · exact ih l _ (Or.inl (by rw [if_pos htemp]; simp))
      · rcases hex with ⟨p, hp, hpne⟩
        rcases List.mem_cons.mp hp with rfl | hp'
        · exact ih p _ (Or.inr (Or.inl hpne))
        · exact ih l _ (Or.inr (Or.inr ⟨p, hp', hpne⟩))
    · rw [if_neg hcond]
      by_cases htemp : temp = []
      · rw [if_neg (by simp [htemp])]
        rcases hd with hacc | htemp' | hex
        · exact ih l acc (Or.inl hacc)
        · exact absurd htemp htemp'
        · rcases hex with ⟨p, hp, hpne⟩
          rcases List.mem_cons.mp hp with rfl | hp'
          · exact ih p acc (Or.inr (Or.inl hpne))
          · exact ih l acc (Or.inr (Or.inr ⟨p, hp', hpne⟩))
      · rw [if_pos htemp]
        exact ih (temp ++ '\n' :: l) acc (Or.inr (Or.inl (by simp [htemp])))

/-- Splitting a string that does not start with a newline yields a non-empty
first line starting with that same character. -/
theorem splitNl_cons_head (c0 : Char) (r : List Char) (hc0 : ¬ c0 = '\n') :
    ∃ t1 tr, splitNl (c0 :: r) = (c0 :: t1) :: tr := by
  obtain ⟨h1, t, hsp, _⟩ := splitNl_eq_join r
  exact ⟨h1, t, by simp [splitNl, if_neg hc0, hsp]⟩

/-- Splitting a string that does not start with a period yields a non-empty
first sentence starting with that same character. -/
theorem splitDot_cons_head (c0 : Char) (r : List Char) (hc0 : ¬ c0 = '.') :
    ∃ t1 tr, splitDot (c0 :: r) = (c0 :: t1) :: tr := by
  obtain ⟨h1, t, hsp, _⟩ := splitDot_eq_join r
  exact ⟨h1, t, splitDot_cons_generic c0 r h1 t (fun _ h _ => hc0 h) hsp⟩

/-- The hard split of a non-empty string is non-empty. -/
theorem hardSplitFuel_ne_nil (fuel maxLen : Nat) (s : List Char) (h : s ≠ []) :
    hardSplitFuel fuel maxLen s ≠ [] := by
  cases fuel with
  | zero => simp [hardSplitFuel, if_neg h]
  | succ n => simp [hardSplitFuel, if_neg h]

/-- Flatten of images of a non-empty list under a nowhere-empty map is
non-empty. -/
theorem flatten_map_ne_nil {α : Type} (l : List (List α)) (f : List α → List (List α))
    (hl : l ≠ []) (hf : ∀ x ∈ l, f x ≠ []) : (l.map f).flatten ≠ [] := by
  cases l with
  | nil => exact absurd rfl hl
  | cons x xs =>
    simp only [List.map_cons, List.flatten_cons]
    have := hf x (by simp)
    intro hcontra
    rcases List.append_eq_nil.mp hcontra with ⟨h1, _⟩
    exact this h1

/-- If some piece of `text.split('. ')` is non-empty, the chunker returns at
least one chunk. -/
theorem split_message_ne_nil_of_exists (s : List Char) (m : Nat) (_h : 0 < m)
    (hex : ∃ p ∈ splitDot s, p ≠ []) :
    split_message_for_social_media s m ≠ [] := by
  by_cases hlen : s.length ≤ m
  · simp [split_message_for_social_media, if_pos hlen]
  · simp only [split_message_for_social_media, if_neg hlen]
    have stage1ne : accumSentences m (splitDot s) [] [] ≠ [] :=
      accumSentences_ne_nil m (splitDot s) [] [] (Or.inr (Or.inr hex))
    have hf2 : ∀ c ∈ accumSentences m (splitDot s) [] [],
        (if c.length ≤ m then [c] else accumLines m (splitNl c) [] []) ≠ [] := by
      intro c hc
      by_cases hcl : c.length ≤ m
      · rw [if_pos hcl]; simp
      · rw [if_neg hcl]
        obtain ⟨w, hw⟩ := accumSentences_mem_stripped m (splitDot s) [] []
          (by simp) c hc
        have hcne : c ≠ [] := by
          intro hnil
          rw [hnil] at hcl
          exact hcl (by simp)
        obtain ⟨c0, t, rfl⟩ := List.exists_cons_of_ne_nil hcne
        have hc0 : isPySpace c0 = false :=
          stripList_head_not_space w c0 t hw.symm
        have hc0nl : ¬ c0 = '\n' := by
          intro hfix
          rw [hfix] at hc0
          simp [isPySpace, pyWhitespace] at hc0
        obtain ⟨t1, tr, hsp⟩ := splitNl_cons_head c0 t hc0nl
        rw [hsp]
        have e : accumLines m ((c0 :: t1) :: tr) [] [] =
            accumLines m tr (c0 :: t1) [] := by
          simp [accumLines]
        rw [e]
        exact accumLines_ne_nil m tr (c0 :: t1) [] (Or.inr (Or.inl (by simp)))
    have stage2ne :
        ((accumSentences m (splitDot s) [] []).map
          (fun c => if c.length ≤ m then [c] else accumLines m (splitNl c) [] [])).flatten ≠ [] :=
      flatten_map_ne_nil _ _ stage1ne hf2
    refine flatten_map_ne_nil _ _ stage2ne ?_
    intro c _
    by_cases hcl : c.length ≤ m
    · rw [if_pos hcl]; simp
    · rw [if_neg hcl]
      have hcne : c ≠ [] := by
        intro hnil
        rw [hnil] at hcl
        exact hcl (by simp)
      exact hardSplitFuel_ne_nil c.length m c hcne

/-- If the input is longer than `max_length` and consists only of `". "`
delimiters, the chunker returns no chunks at all. -/
theorem split_message_nil_of_all_nil (s : List Char) (m : Nat)
    (hm : m < s.length) (hall : ∀ p ∈ splitDot s, p = []) :
    split_message_for_social_media s m = [] := by
  simp only [split_message_for_social_media, if_neg (not_le.mpr hm)]
  rw [accumSentences_nil_of_all_nil m (splitDot s) hall]
  simp

/-- Counterexample for C7: the output is NOT non-empty iff the input is
non-empty.  The empty input yields the non-empty list `[""]`, and the
non-empty input `". "` with `max_length = 1` yields the empty list. -/
theorem chunker_nonempty_iff_counterexample :
    ¬ (split_message_for_social_media ("" : String).data 5 ≠ [] ↔ ("" : String).data ≠ []) ∧
    ¬ (split_message_for_social_media ". ".data 1 ≠ [] ↔ ". ".data ≠ []) := by
  decide

/-- C7 (amended): for positive `max_length` the chunker (both copies) returns
the empty list exactly when the input is longer than `max_length` and every
piece of `input.split('. ')` is empty (the input is a run of `". "`
delimiters); in every other case — including the empty input, which yields
`[""]` — the output is non-empty. -/
theorem chunker_empty_iff (s : List Char) (m : Nat) (h : 0 < m) :
    (split_message_for_social_media s m = [] ↔
      m < s.length ∧ ∀ p ∈ splitDot s, p = []) ∧
    (split_message_for_instagram s m = [] ↔
      m < s.length ∧ ∀ p ∈ splitDot s, p = []) := by
  have main : split_message_for_social_media s m = [] ↔
      m < s.length ∧ ∀ p ∈ splitDot s, p = [] := by
    constructor
    · intro hemp
      by_cases hlen : s.length ≤ m
      · exfalso
        simp [split_message_for_social_media, if_pos hlen] at hemp
      · refine ⟨not_le.mp hlen, ?_⟩
        by_contra hex
        push_neg at hex
        exact split_message_ne_nil_of_exists s m h hex hemp
    · rintro ⟨hm, hall⟩
      exact split_message_nil_of_all_nil s m hm hall
  exact ⟨main, main⟩

/-- Witness for C7 (amended): `". "` with `max_length = 1` produces no
chunks, as the characterization predicts. -/
theorem chunker_empty_iff_witness :
    split_message_for_social_media ". ".data 1 = [] :=
  (chunker_empty_iff ". ".data 1 (by decide)).1.mpr (by decide)

/-- Closed form of the eviction loop: it drops the front of the deque down to
length 500 and erases exactly the dropped identifiers from the set. -/
theorem evictLoop_eq :
    ∀ (ids : List String) (index : Finset String),
      evictLoop ids index =
        (ids.drop (ids.length - 500),
         (ids.take (ids.length - 500)).foldl (fun s a => s.erase a) index) := by
  intro ids
  induction ids with
  | nil => intro index; simp [evictLoop]
  | cons old rest ih =>
    intro index
    by_cases hlen : 500 < (old :: rest).length
    · rw [evictLoop, if_pos hlen, ih]
      have h5 : 500 ≤ rest.length := by simp at hlen; omega
      have hdrop : (old :: rest).length - 500 = (rest.length - 500) + 1 := by
        simp; omega
      rw [hdrop]
      simp [List.drop_succ_cons, List.take_succ_cons]
    · rw [evictLoop, if_neg hlen]
      have h0 : (old :: rest).length - 500 = 0 := by simp at hlen ⊢; omega
      rw [h0]
      simp

/-- One fresh `_is_duplicate` call: returns `false`, appends the identifier,
evicts down to 500, and keeps the set equal to the deque's contents. -/
theorem is_duplicate_step (x : String) (st : DedupState)
    (hnodup : st.ids.Nodup) (hidx : st.index = st.ids.toFinset)
    (hlen : st.ids.length ≤ 500) (hx : x ∉ st.ids) :
    (is_duplicate x st).1 = false ∧
    (is_duplicate x st).2.ids = (st.ids ++ [x]).drop ((st.ids.length + 1) - 500) ∧
    (is_duplicate x st).2.index = (is_duplicate x st).2.ids.toFinset ∧
    (is_duplicate x st).2.ids.Nodup ∧
    (is_duplicate x st).2.ids.length ≤ 500 := by
  have hxidx : x ∉ st.index := by
    rw [hidx, List.mem_toFinset]
    exact hx
  have hnodup1 : (st.ids ++ [x]).Nodup := by
    simp [List.nodup_append, hnodup, hx]
  have hlen1 : (st.ids ++ [x]).length = st.ids.length + 1 := by simp
  have hstep : is_duplicate x st =
      (false,
       ⟨(st.ids ++ [x]).drop (st.ids.length + 1 - 500),
        ((st.ids ++ [x]).take (st.ids.length + 1 - 500)).foldl
          (fun s a => s.erase a) (insert x st.index)⟩) := by
    simp only [is_duplicate, if_neg hxidx]
    rw [evictLoop_eq, hlen1]
  rw [hstep]
  refine ⟨by rfl, by rfl, ?_, ?_, ?_⟩
  · -- the set tracked equals the deque contents after eviction
    simp only
    rcases Nat.lt_or_ge st.ids.length 500 with hsmall | hbig
    · have h0 : st.ids.length + 1 - 500 = 0 := by omega
      rw [h0]
      simp [hidx, List.toFinset_append, Finset.union_comm, Finset.insert_eq]
    · have h500 : st.ids.length = 500 := by omega
      have h1 : st.ids.length + 1 - 500 = 1 := by omega
      rw [h1]
      obtain ⟨o, r, hor⟩ : ∃ o r, st.ids = o :: r := by
        cases hids : st.ids with
        | nil => rw [hids] at h500; simp at h500
        | cons o r => exact ⟨o, r, rfl⟩
      have honr : o ∉ r := (List.nodup_cons.mp (hor ▸ hnodup)).1
      have honx : o ≠ x := by
        intro hfix
        exact hx (hor ▸ hfix ▸ List.mem_cons_self o r)
      rw [hor]
      simp only [List.cons_append, List.take_succ_cons, List.take_zero,
        List.drop_succ_cons, List.drop_zero, List.foldl_cons, List.foldl_nil]
      rw [hidx, hor]
      have hcomm : insert x (o :: r).toFinset = insert o (insert x r.toFinset) := by
        simp [List.toFinset_cons, Finset.Insert.comm]
      rw [hcomm, Finset.erase_insert (by simp [honx, honr])]
      simp [List.toFinset_append, Finset.union_comm, Finset.insert_eq]
  · exact hnodup1.sublist (List.drop_sublist _ _)
  · simp only [List.length_drop, hlen1]
    omega

/-- Invariant of an arbitrary run of fresh calls: the deque is the suffix of
the processed identifiers that fits in the capacity, the set mirrors it, and
it never exceeds 500 entries. -/
theorem runCalls_invariant :
    ∀ (xs : List String) (st : DedupState),
      st.ids.Nodup → st.index = st.ids.toFinset → st.ids.length ≤ 500 →
      xs.Nodup → (∀ x ∈ xs, x ∉ st.ids) →
      (runCalls xs st).ids = (st.ids ++ xs).drop (st.ids.length + xs.length - 500) ∧
      (runCalls xs st).index = (runCalls xs st).ids.toFinset ∧
      (runCalls xs st).ids.Nodup ∧ (runCalls xs st).ids.length ≤ 500 := by
  intro xs
  induction xs with
  | nil =>
    intro st h1 h2 h3 _ _
    have h0 : st.ids.length + 0 - 500 = 0 := by omega
    simp [runCalls, h0, h1, h2, h3]
  | cons x rest ih =>
    intro st h1 h2 h3 hnd hfresh
    have hx : x ∉ st.ids := hfresh x (by simp)
    obtain ⟨_, hids', hidx', hnodup', hlen'⟩ := is_duplicate_step x st h1 h2 h3 hx
    have hrun : runCalls (x :: rest) st = runCalls rest (is_duplicate x st).2 := by
      simp [runCalls]
    have hfresh' : ∀ y ∈ rest, y ∉ (is_duplicate x st).2.ids := by
      intro y hy hmem
      rw [hids'] at hmem
      have hmem1 : y ∈ st.ids ++ [x] := List.mem_of_mem_drop hmem
      rcases List.mem_append.mp hmem1 with hin | hin
      · exact hfresh y (by simp [hy]) hin
      · simp at hin
        subst hin
        exact (List.nodup_cons.mp hnd).1 hy
    obtain ⟨ha, hb, hc, hd⟩ := ih (is_duplicate x st).2 hnodup' hidx' hlen'
      (List.nodup_cons.mp hnd).2 hfresh'
    rw [hrun]
    refine ⟨?_, hb, hc, hd⟩
    rw [ha, hids']
    have hk : st.ids.length + 1 - 500 ≤ (st.ids ++ [x]).length := by
      simp only [List.length_append, List.length_cons, List.length_nil]
      omega
    rw [← List.drop_append_of_le_length hk, List.drop_drop]
    have hlist : st.ids ++ [x] ++ rest = st.ids ++ x :: rest := by simp
    rw [hlist]
    congr 1
    simp
    omega

/-- C3: starting from the empty filter, after `N` calls with pairwise-distinct
identifiers the deque and the set each hold exactly `min N 500` entries, and
after every intermediate call the deque holds at most 500 entries. -/
theorem dedup_bounded_size (xs : List String) (h : xs.Nodup) :
    (runCalls xs emptyDedup).ids.length = min xs.length 500 ∧
    (runCalls xs emptyDedup).index.card = min xs.length 500 ∧
    ∀ k, (runCalls (xs.take k) emptyDedup).ids.length ≤ 500 := by
  have base : ∀ (ys : List String), ys.Nodup →
      (runCalls ys emptyDedup).ids.length = min ys.length 500 ∧
      (runCalls ys emptyDedup).index.card = min ys.length 500 := by
    intro ys hys
    obtain ⟨ha, hb, hc, _⟩ := runCalls_invariant ys emptyDedup
      (by simp [emptyDedup]) (by simp [emptyDedup]) (by simp [emptyDedup])
      hys (by simp [emptyDedup])
    have hlen : (runCalls ys emptyDedup).ids.length = min ys.length 500 := by
      rw [ha]
      simp [emptyDedup]
      omega
    refine ⟨hlen, ?_⟩
    rw [hb, List.toFinset_card_of_nodup hc]
    exact hlen
  refine ⟨(base xs h).1, (base xs h).2, ?_⟩
  intro k
  have hsub : (xs.take k).Nodup := h.sublist (List.take_sublist k xs)
  rw [(base (xs.take k) hsub).1]
  omega

/-- Witness for C3: three distinct identifiers leave exactly
`min 3 500` entries in the deque. -/
theorem dedup_bounded_size_witness :
    (runCalls ["a", "b", "c"] emptyDedup).ids.length =
      min (["a", "b", "c"] : List String).length 500 :=
  (dedup_bounded_size ["a", "b", "c"] (by decide)).1

/-- Erasing identifiers different from `x` never removes `x` from the set. -/
theorem mem_foldl_erase (x : String) :
    ∀ (l : List String) (s : Finset String), x ∈ s → (∀ a ∈ l, a ≠ x) →
      x ∈ l.foldl (fun s a => s.erase a) s := by
  intro l
  induction l with
  | nil => intro s hs _; simpa using hs
  | cons a t ih =>
    intro s hs hne
    simp only [List.foldl_cons]
    refine ih (s.erase a) ?_ fun b hb => hne b (by simp [hb])
    rw [Finset.mem_erase]
    exact ⟨fun hfix => hne a (by simp) hfix.symm, hs⟩

/-- C4: an identifier already in the membership set makes `_is_duplicate`
return `true` and leave the state completely unchanged; from any state in
which the identifier is absent (from both structures), two consecutive calls
return `false` then `true`. -/
theorem dedup_duplicate_frame (x : String) (st : DedupState) :
    (x ∈ st.index → is_duplicate x st = (true, st)) ∧
    (x ∉ st.index → x ∉ st.ids →
      (is_duplicate x st).1 = false ∧
      (is_duplicate x ((is_duplicate x st).2)).1 = true) := by
  constructor
  · intro hmem
    simp [is_duplicate, if_pos hmem]
  · intro hnidx hnids
    have hfst : (is_duplicate x st).1 = false := by
      simp [is_duplicate, if_neg hnidx]
    refine ⟨hfst, ?_⟩
    have hidx2 : x ∈ (is_duplicate x st).2.index := by
      simp only [is_duplicate, if_neg hnidx]
      rw [evictLoop_eq]
      simp only
      refine mem_foldl_erase x _ _ (by simp) ?_
      intro a ha hax
      have hk : (st.ids ++ [x]).length - 500 ≤ st.ids.length := by
        simp only [List.length_append, List.length_cons, List.length_nil]
        omega
      have hmem : a ∈ (st.ids ++ [x]).take ((st.ids ++ [x]).length - 500) := ha
      have : a ∈ st.ids := by
        rw [List.take_append_of_le_length hk] at hmem
        exact List.mem_of_mem_take hmem
      exact hnids (hax ▸ this)
    obtain ⟨st2, hst2⟩ : ∃ st2, (is_duplicate x st).2 = st2 := ⟨_, rfl⟩
    rw [hst2] at hidx2 ⊢
    simp [is_duplicate, if_pos hidx2]

/-- Witness for C4: with the deque holding `"a"`, calling on `"a"` returns
`true` without touching state, and a fresh `"b"` yields `false` then `true`. -/
theorem dedup_duplicate_frame_witness :
    is_duplicate "a" (⟨["a"], {"a"}⟩ : DedupState) = (true, ⟨["a"], {"a"}⟩) ∧
    (is_duplicate "b" (⟨["a"], {"a"}⟩ : DedupState)).1 = false ∧
    (is_duplicate "b" ((is_duplicate "b" (⟨["a"], {"a"}⟩ : DedupState)).2)).1 = true :=
  ⟨(dedup_duplicate_frame "a" ⟨["a"], {"a"}⟩).1 (by decide),
   ((dedup_duplicate_frame "b" ⟨["a"], {"a"}⟩).2 (by decide) (by decide)).1,
   ((dedup_duplicate_frame "b" ⟨["a"], {"a"}⟩).2 (by decide) (by decide)).2⟩

/-- Counterexample for C5: with a secret configured, a non-numeric timestamp
header `"abc"` and a wrong signature satisfy the claim's rejection condition,
yet the function does not raise a 401 — `int(timestamp)` raises an uncaught
`ValueError` instead.  So "401 if and only if ..." fails as stated. -/
theorem slack_verify_iff_counterexample :
    slackClaimReject "s" constHmacHex 1000 "abc" "zzz" "" = true ∧
    isUnauthorized (verify_slack_signature "s" constHmacHex 1000 "abc" "zzz" "") = false ∧
    verify_slack_signature "s" constHmacHex 1000 "abc" "zzz" "" = .valueError := by
  decide

/-- C5 (amended): with no secret configured the function returns without
verifying anything; a 401 is raised if and only if a secret is configured and
a header is missing, or the timestamp is numeric and more than 300 seconds
from the current time, or the timestamp is numeric, inside the window, and
the signature mismatches; and the remaining case — both headers present but a
non-numeric timestamp — raises `ValueError` (surfaced as a 500), not a 401. -/
theorem slack_verify_characterization (secret : String)
    (hmacHex : String → String → String) (now : Int)
    (timestamp signature raw_body : String) :
    (secret = "" →
      verify_slack_signature secret hmacHex now timestamp signature raw_body = .ok) ∧
    (isUnauthorized (verify_slack_signature secret hmacHex now timestamp signature raw_body)
        = true ↔
      (secret ≠ "" ∧ (timestamp = "" ∨ signature = "" ∨
        slackTsStale now timestamp = true ∨
        (slackTsFresh now timestamp = true ∧
          signature ≠ "v0=" ++ hmacHex secret ("v0:" ++ timestamp ++ ":" ++ raw_body))))) ∧
    (verify_slack_signature secret hmacHex now timestamp signature raw_body = .valueError ↔
      (secret ≠ "" ∧ timestamp ≠ "" ∧ signature ≠ "" ∧ pyIntParse timestamp = none)) := by
  by_cases h1 : secret = ""
  · simp [verify_slack_signature, h1, isUnauthorized]
  · by_cases h2 : timestamp = "" ∨ signature = ""
    · simp only [verify_slack_signature, if_neg h1, if_pos h2]
      refine ⟨fun hc => absurd hc h1, ?_, ?_⟩
      · simp only [isUnauthorized, true_iff]
        exact ⟨h1, by tauto⟩
      · constructor
        · intro hc; cases hc
        · rintro ⟨_, hts, hsig, _⟩
          rcases h2 with h2 | h2
          · exact absurd h2 hts
          · exact absurd h2 hsig
    · push_neg at h2
      obtain ⟨hts, hsig⟩ := h2
      have h2' : ¬ (timestamp = "" ∨ signature = "") := by tauto
      simp only [verify_slack_signature, if_neg h1, if_neg h2']
      cases hp : pyIntParse timestamp with
      | none =>
        simp [isUnauthorized, slackTsStale, slackTsFresh, hp, h1, hts, hsig]
      | some ts =>
        dsimp only
        by_cases h3 : 60 * 5 < (now - ts).natAbs
        · rw [if_pos h3]
          have h3' : 300 < (now - ts).natAbs := by omega
          refine ⟨fun hc => absurd hc h1, ?_, ?_⟩
          · simp only [isUnauthorized, true_iff]
            exact ⟨h1, Or.inr (Or.inr (Or.inl (by simp [slackTsStale, hp, h3'])))⟩
          · constructor
            · intro hc; cases hc
            · rintro ⟨_, _, _, hnone⟩
              cases hnone
        · rw [if_neg h3]
          have h3' : (now - ts).natAbs ≤ 300 := by omega
          have hfresh : slackTsFresh now timestamp = true := by
            simp [slackTsFresh, hp, h3']
          have hstale : slackTsStale now timestamp = false := by
            simp [slackTsStale, hp]
            omega
          by_cases h4 :
              ("v0=" ++ hmacHex secret ("v0:" ++ timestamp ++ ":" ++ raw_body)) = signature
          · rw [if_neg (not_not_intro h4)]
            refine ⟨fun hc => absurd hc h1, ?_, ?_⟩
            · simp only [isUnauthorized, Bool.false_eq_true, false_iff]
              rintro ⟨_, hd⟩
              rcases hd with hd | hd | hd | ⟨_, hne⟩
              · exact hts hd
              · exact hsig hd
              · rw [hstale] at hd; cases hd
              · exact hne h4.symm
            · constructor
              · intro hc; cases hc
              · rintro ⟨_, _, _, hnone⟩
                cases hnone
          · rw [if_pos h4]
            refine ⟨fun hc => absurd hc h1, ?_, ?_⟩
            · simp only [isUnauthorized, true_iff]
              exact ⟨h1, Or.inr (Or.inr (Or.inr ⟨hfresh, fun he => h4 he.symm⟩))⟩
            · constructor
              · intro hc; cases hc
              · rintro ⟨_, _, _, hnone⟩
                cases hnone

/-- Witness for C5 (amended): with `now = 1000` and a matching signature, the
timestamp `"699"` (301 seconds old) is rejected with a 401 while `"701"`
(299 seconds old) is accepted. -/
theorem slack_verify_characterization_witness :
    isUnauthorized (verify_slack_signature "s" constHmacHex 1000 "699" "v0=00" "b") = true ∧
    isUnauthorized (verify_slack_signature "s" constHmacHex 1000 "701" "v0=00" "b") = false :=
  ⟨((slack_verify_characterization "s" constHmacHex 1000 "699" "v0=00" "b").2.1).mpr
      (by refine ⟨by decide, Or.inr (Or.inr (Or.inl (by decide)))⟩),
   Bool.eq_false_iff.mpr fun htrue => by
     have h := ((slack_verify_characterization "s" constHmacHex 1000 "701" "v0=00" "b").2.1).mp
       htrue
     revert h
     decide⟩

/-- If the text does not begin with a period, the chunker output is
non-empty. -/
theorem split_ne_nil_of_head (m : Nat) (hm : 0 < m) (c0 : Char) (r : List Char)
    (hdot : ¬ c0 = '.') : split_message_for_social_media (c0 :: r) m ≠ [] := by
  by_cases hlen : (c0 :: r).length ≤ m
  · rw [split_message_for_social_media, if_pos hlen]
    simp
  · refine split_message_ne_nil_of_exists _ _ hm ?_
    obtain ⟨t1, tr, hsp⟩ := splitDot_cons_head c0 r hdot
    exact ⟨c0 :: t1, by simp [hsp], by simp⟩

/-- Counterexample for C6: when the upstream call fails with a non-2xx status,
the user-facing reply is not a default apology string — it embeds the raw
error text (here `"secret upstream detail"`), which is then sent to the end
user. -/
theorem rag_apology_counterexample :
    List.IsInfix "secret upstream detail".data
      (get_rag_chat_response (.httpStatusError 500 "secret upstream detail") "25.0").data ∧
    get_rag_chat_response (.httpStatusError 500 "secret upstream detail") "25.0" ≠
      "Sorry, the request took too long. Please try again with a shorter question." ∧
    get_rag_chat_response (.httpStatusError 500 "secret upstream detail") "25.0" ≠
      "Sorry, I couldn't get a response." := by
  refine ⟨⟨"Sorry, I encountered an error: RAG chat API returned error 500: ".data, [], ?_⟩,
    by decide, by decide⟩
  decide

/-- C6 (amended): on every upstream failure the handler substitutes an
apology-prefixed reply and continues to the send step, so the end user always
receives at least one message chunk; the timeout apology is a fixed string
carrying no error detail, but on any other failure the apology embeds the raw
error text, which is therefore propagated to the end user. -/
theorem rag_failure_reply (code : Nat) (text errMsg timeoutStr : String) :
    (get_rag_chat_response .timeout timeoutStr =
      "Sorry, the request took too long. Please try again with a shorter question.") ∧
    (get_rag_chat_response (.httpStatusError code text) timeoutStr =
      "Sorry, I encountered an error: " ++
        ("RAG chat API returned error " ++ toString code ++ ": " ++ text)) ∧
    List.IsInfix text.data
      (get_rag_chat_response (.httpStatusError code text) timeoutStr).data ∧
    (get_rag_chat_response (.requestError errMsg) timeoutStr =
      "Sorry, I encountered an error: " ++ ("Failed to call RAG chat API: " ++ errMsg)) ∧
    List.IsInfix errMsg.data
      (get_rag_chat_response (.requestError errMsg) timeoutStr).data ∧
    facebook_reply_chunks .timeout timeoutStr ≠ [] ∧
    facebook_reply_chunks (.httpStatusError code text) timeoutStr ≠ [] ∧
    facebook_reply_chunks (.requestError errMsg) timeoutStr ≠ [] := by
  have heq1 : get_rag_chat_response (.httpStatusError code text) timeoutStr =
      "Sorry, I encountered an error: " ++
        ("RAG chat API returned error " ++ toString code ++ ": " ++ text) := rfl
  have heq2 : get_rag_chat_response (.requestError errMsg) timeoutStr =
      "Sorry, I encountered an error: " ++ ("Failed to call RAG chat API: " ++ errMsg) := rfl
  refine ⟨rfl, heq1, ?_, heq2, ?_, ?_, ?_, ?_⟩
  · refine ⟨("Sorry, I encountered an error: " ++
      ("RAG chat API returned error " ++ toString code ++ ": ")).data, [], ?_⟩
    rw [heq1]
    simp [String.data_append]
  · refine ⟨("Sorry, I encountered an error: " ++ "Failed to call RAG chat API: ").data,
      [], ?_⟩
    rw [heq2]
    simp [String.data_append]
  · -- timeout: the fixed apology is short, so the send list is its singleton
    have h0 : facebook_reply_chunks .timeout timeoutStr =
        split_message_for_social_media
          "Sorry, the request took too long. Please try again with a shorter question.".data
          1900 := rfl
    rw [h0]
    decide
  · -- http error: the reply starts with 'S', so the chunker returns something
    have hdata : (get_rag_chat_response (.httpStatusError code text) timeoutStr).data =
        'S' :: ("orry, I encountered an error: ".data ++
          ("RAG chat API returned error " ++ toString code ++ ": " ++ text).data) := by
      rw [heq1]
      rw [String.data_append]
      rfl
    rw [facebook_reply_chunks, hdata]
    exact split_ne_nil_of_head 1900 (by norm_num) 'S' _ (by decide)
  · have hdata : (get_rag_chat_response (.requestError errMsg) timeoutStr).data =
        'S' :: ("orry, I encountered an error: ".data ++
          ("Failed to call RAG chat API: " ++ errMsg).data) := by
      rw [heq2]
      rw [String.data_append]
      rfl
    rw [facebook_reply_chunks, hdata]
    exact split_ne_nil_of_head 1900 (by norm_num) 'S' _ (by decide)

/-- Witness for C6 (amended): a concrete 502 upstream failure still produces a
reply whose raw error text survives into the outbound message. -/
theorem rag_failure_reply_witness :
    get_rag_chat_response (.httpStatusError 502 "Bad Gateway") "25.0" =
      "Sorry, I encountered an error: " ++
        ("RAG chat API returned error " ++ toString 502 ++ ": " ++ "Bad Gateway") :=
  (rag_failure_reply 502 "Bad Gateway" "m" "25.0").2.1

/-- Counterexample for C9: after processing a non-empty batch the loop does
NOT sleep before the next fetch (the sleep happens only on failure or when no
updates arrived) — here an iteration that processed one update. -/
theorem poll_sleep_counterexample :
    (poll_iteration none (.batch [⟨some 5⟩])).2 = none ∧
    (poll_iteration none (.batch [⟨some 5⟩])).1 = some 6 := by
  decide

/-- C9 (amended): the loop sleeps the fixed interval exactly when the fetch
failed or returned no updates; after a non-empty batch the next fetch happens
immediately, and the cursor is advanced to (last id-carrying update's
`update_id`) + 1 — in particular past the id of the final update of the
batch (the highest, when the platform delivers updates in ascending order). -/
theorem poll_iteration_characterization (offset : Option Int) (fetch : TgFetchResult) :
    ((poll_iteration offset fetch).2 = some POLL_INTERVAL_SECONDS ↔
      (fetch = .failure ∨ fetch = .batch [])) ∧
    ((poll_iteration offset fetch).2 = none ∨
      (poll_iteration offset fetch).2 = some POLL_INTERVAL_SECONDS) ∧
    (∀ us u i, fetch = .batch us → us.getLast? = some u → u.update_id = some i →
      (poll_iteration offset fetch).1 = some (i + 1)) := by
  refine ⟨?_, ?_, ?_⟩
  · cases fetch with
    | failure => simp [poll_iteration]
    | batch us =>
      cases us with
      | nil => simp [poll_iteration]
      | cons u rest => simp [poll_iteration]
  · cases fetch with
    | failure => simp [poll_iteration]
    | batch us =>
      cases us with
      | nil => simp [poll_iteration]
      | cons u rest => simp [poll_iteration]
  · intro us u i hfetch hlast hid
    subst hfetch
    rcases List.eq_nil_or_concat us with rfl | ⟨ys, a, rfl⟩
    · simp at hlast
    · rw [List.concat_eq_append] at hlast ⊢
      rw [List.getLast?_concat] at hlast
      have ha : a = u := by
        injection hlast
      subst ha
      have hne : ¬ (ys ++ [a]).isEmpty := by
        simp
      simp only [poll_iteration, if_neg hne]
      rw [List.foldl_append]
      simp [hid]

/-- Witness for C9 (amended): a failed fetch sleeps the fixed 2 seconds, and a
batch ending with update id 7 moves the cursor to 8. -/
theorem poll_iteration_characterization_witness :
    (poll_iteration (some 1) .failure).2 = some POLL_INTERVAL_SECONDS ∧
    (poll_iteration (some 1) (.batch [⟨some 7⟩])).1 = some 8 :=
  ⟨((poll_iteration_characterization (some 1) .failure).1).mpr (Or.inl rfl),
   (poll_iteration_characterization (some 1) (.batch [⟨some 7⟩])).2.2
     [⟨some 7⟩] ⟨some 7⟩ 7 rfl (by decide) rfl⟩

/-- Counterexample for C10: the Slack handler does not chunk — a 1901
character reply goes out as a single send longer than the claimed limit. -/
theorem slack_unchunked_counterexample :
    ¬ (∀ c ∈ slack_outbound_texts (List.replicate 1901 'a'), c.length ≤ 1900) := by
  intro h
  have := h (List.replicate 1901 'a') (by simp [slack_outbound_texts])
  simp at this

/-- C10 (amended): Facebook and Instagram replies are chunked with
`max_length = 1900`, so each of their outbound sends is at most 1900
characters; the Slack handler sends the reply unchunked in a single send,
with no length bound. -/
theorem outbound_chunking (reply : List Char) :
    (∀ c ∈ facebook_outbound_texts reply, c.length ≤ 1900) ∧
    (∀ c ∈ instagram_outbound_texts reply, c.length ≤ 1900) ∧
    slack_outbound_texts reply = [reply] :=
  ⟨split_message_length_le reply 1900, split_message_length_le reply 1900, rfl⟩

/-- Witness for C10 (amended): on the reply `"hi"` the Facebook pipeline's
single chunk respects the bound and Slack sends the reply as-is. -/
theorem outbound_chunking_witness :
    "hi".data.length ≤ 1900 ∧ slack_outbound_texts "hi".data = ["hi".data] :=
  ⟨(outbound_chunking "hi".data).1 "hi".data (by decide),
   (outbound_chunking "hi".data).2.2⟩
